import Mathlib

/-
Verification of the hldup duplicate-file hardlinker core.

The Rust sources (src/utils.rs, src/hashcache.rs, src/main.rs) are shallowly
embedded below: machine integers become Nat/Int with explicit wrap-around
where the source can overflow, file bytes become List Nat, the filesystem
becomes an explicit state record, and fallible operations return Except or
Option.  Each embedded definition keeps the name of the source item it
translates.
-/

/-! ## Machine-integer helpers (u64 arithmetic of the Rust source) -/

/-- The modulus of Rust's u64 type. -/
def U64LIM : Nat := 2 ^ 64

/-- Wrapping u64 subtraction (release-mode semantics of `a - b` on u64). -/
def u64_sub (a b : Nat) : Nat := (a % U64LIM + U64LIM - b % U64LIM) % U64LIM

/-- Reinterpretation of a u64 bit pattern as an i64 (the `as i64` cast). -/
def u64_as_i64 (n : Nat) : Int :=
  if n % U64LIM < 2 ^ 63 then (n % U64LIM : Int) else (n % U64LIM : Int) - U64LIM

/-- Fuel-driven floor base-2 logarithm; `ilog2Aux fuel n` halves `n` until it
reaches 1, so any `fuel ≥ n` computes `u64::ilog2 n` for `n ≥ 1`.  The fuel
makes the recursion structural so that the kernel can evaluate it. -/
def ilog2Aux : Nat → Nat → Nat
  | 0, _ => 0
  | fuel + 1, n => if n ≤ 1 then 0 else ilog2Aux fuel (n / 2) + 1

/-- Model of Rust's `u64::ilog2` (floor of log2; the source only calls it on
nonzero values). -/
def ilog2 (n : Nat) : Nat := ilog2Aux n n

/-! ## Constants from src/utils.rs and src/hashcache.rs -/

def KB : Nat := 1024

def MB : Nat := 1024 * KB

def GB : Nat := 1024 * MB

/-- The number of bytes in each sample. -/
def SAMPLE_SIZE : Nat := 8 * 1024

/-- The minimum samples to take when hashing a file. -/
def MIN_SAMPLES : Nat := 2

/-- The maximum size of a file where we will take MIN_SAMPLES samples. -/
def MIN_SAMPLES_MAX : Nat := 1 * MB

/-- The maximum number of samples to take when hashing a file. -/
def MAX_SAMPLES : Nat := 4

/-- The minimum size of a file where we will take MAX_SAMPLES samples. -/
def MAX_SAMPLES_MIN : Nat := 16 * GB

/-! ## calculate_skiplen (src/hashcache.rs, lines 142-155)

The source computes, for `filesize > MIN_SAMPLES * buffsize`,
`samples = min(MIN_SAMPLES + size_factor * (MAX_SAMPLES - MIN_SAMPLES) / (ilog2(MAX_SAMPLES_MIN) - ilog2(MIN_SAMPLES_MAX)), MAX_SAMPLES)`
in u32 arithmetic (no overflow: the numerator is at most 63 * 2) and then
returns `((filesize / samples) - buffsize) as i64` where the subtraction is a
u64 subtraction — it wraps in release builds and panics in debug builds when
`filesize / samples < buffsize`.  The wrap-then-cast is modelled exactly. -/

/-- The sample count chosen by `calculate_skiplen` for a large file
(the `samples` local of the source, with `size_factor = filesize.ilog2()`). -/
def samples_for (filesize : Nat) : Nat :=
  min
    (MIN_SAMPLES +
      (ilog2 filesize * (MAX_SAMPLES - MIN_SAMPLES)) /
        (ilog2 MAX_SAMPLES_MIN - ilog2 MIN_SAMPLES_MAX))
    MAX_SAMPLES

/-- Model of `calculate_skiplen`. -/
def calculate_skiplen (filesize buffsize : Nat) : Int :=
  if filesize ≤ MIN_SAMPLES * buffsize then 0
  else u64_as_i64 (u64_sub (filesize / samples_for filesize) buffsize)

/-! ## The spec's sampling schedule (section 4.1 of the specification)

`samples = clamp(MIN_SAMPLES + floor(log2(size) * (MAX_SAMPLES - MIN_SAMPLES) / (log2(MAX_SAMPLES_MIN) - log2(MIN_SAMPLES_MAX))), MIN_SAMPLES, MAX_SAMPLES)`
and `skip = size / samples - SAMPLE_SIZE`, with skip 0 for
`size ≤ MIN_SAMPLES * SAMPLE_SIZE`.  Written with the same floor log2; moving
the floor inside is harmless because floor(x / 7) = floor(floor(x) / 7). -/

/-- Modelled from the spec: the clamp-based sample count of section 4.1. -/
def samples_spec (size : Nat) : Nat :=
  min
    (max
      (MIN_SAMPLES +
        (ilog2 size * (MAX_SAMPLES - MIN_SAMPLES)) /
          (ilog2 MAX_SAMPLES_MIN - ilog2 MIN_SAMPLES_MAX))
      MIN_SAMPLES)
    MAX_SAMPLES

/-- Modelled from the spec: the skip length of section 4.1, as an exact
integer (no machine wrap-around). -/
def skiplen_spec (size : Nat) : Int :=
  if size ≤ MIN_SAMPLES * SAMPLE_SIZE then 0
  else (size / samples_spec size : Nat) - (SAMPLE_SIZE : Int)

theorem samples_for_ge_two (s : Nat) : 2 ≤ samples_for s := by
  unfold samples_for MIN_SAMPLES MAX_SAMPLES
  exact Nat.le_min.2 ⟨Nat.le_add_right 2 _, by norm_num⟩

theorem samples_spec_eq_samples_for (s : Nat) : samples_spec s = samples_for s := by
  unfold samples_spec samples_for
  rw [Nat.max_eq_left (Nat.le_add_right MIN_SAMPLES _)]

theorem u64_as_i64_sub (a b : Nat) (ha : a < 2 ^ 63) (hb : b ≤ 2 ^ 63) :
    u64_as_i64 (u64_sub a b) = (a : Int) - b := by
  unfold u64_as_i64 u64_sub U64LIM
  split <;> omega

/-- C6: sampling schedule.  For a u64 file size, if the size is at most
MIN_SAMPLES * SAMPLE_SIZE (16 KiB) the computed skip length is 0; otherwise
the sample count equals the spec's clamp formula and the returned skip length
equals the exact integer `size / samples - SAMPLE_SIZE`. -/
theorem calculate_skiplen_matches_spec (size : Nat) (hsize : size < 2 ^ 64) :
    calculate_skiplen size SAMPLE_SIZE = skiplen_spec size
    ∧ (¬ size ≤ MIN_SAMPLES * SAMPLE_SIZE → samples_for size = samples_spec size)
    ∧ (size ≤ MIN_SAMPLES * SAMPLE_SIZE → calculate_skiplen size SAMPLE_SIZE = 0) := by
  refine ⟨?_, fun _ => (samples_spec_eq_samples_for size).symm, fun h => by
    unfold calculate_skiplen
    simp [h]⟩
  unfold calculate_skiplen skiplen_spec
  by_cases h : size ≤ MIN_SAMPLES * SAMPLE_SIZE
  · simp [h]
  · rw [if_neg h, if_neg h, samples_spec_eq_samples_for]
    have h2 : 2 ≤ samples_for size := samples_for_ge_two size
    have hdiv : size / samples_for size ≤ size / 2 :=
      Nat.div_le_div_left h2 (by norm_num)
    have hhalf : size / 2 < 2 ^ 63 := by omega
    exact u64_as_i64_sub _ _ (lt_of_le_of_lt hdiv hhalf) (by norm_num [SAMPLE_SIZE])

/-- Witness for C6: a concrete 20000-byte file takes 4 samples and the code's
skip length agrees with the spec formula (value -3192). -/
theorem calculate_skiplen_matches_spec_witness :
    (20000 : Nat) < 2 ^ 64
    ∧ calculate_skiplen 20000 SAMPLE_SIZE = -3192
    ∧ (calculate_skiplen 20000 SAMPLE_SIZE = skiplen_spec 20000
       ∧ (¬ (20000 : Nat) ≤ MIN_SAMPLES * SAMPLE_SIZE →
            samples_for 20000 = samples_spec 20000)
       ∧ ((20000 : Nat) ≤ MIN_SAMPLES * SAMPLE_SIZE →
            calculate_skiplen 20000 SAMPLE_SIZE = 0)) :=
  ⟨by decide, by decide, calculate_skiplen_matches_spec 20000 (by decide)⟩

/-- C3: skip-length safety fails.  For the file size 16385 (which is strictly
greater than MIN_SAMPLES * SAMPLE_SIZE = 16384) the source picks 4 samples,
and the u64 subtraction `filesize / samples - buffsize` = `4096 - 8192`
underflows: it panics in a debug build and wraps in a release build, where
the cast to i64 yields the negative seek offset -4096 instead of a
nonnegative number of bytes to skip forward. -/
theorem calculate_skiplen_underflow_bug :
    16384 < (16385 : Nat)
    ∧ 16384 = MIN_SAMPLES * SAMPLE_SIZE
    ∧ samples_for 16385 = 4
    ∧ 16385 / samples_for 16385 < 8192
    ∧ calculate_skiplen 16385 SAMPLE_SIZE = -4096 := by
  refine ⟨by decide, by decide, by decide, by decide, by decide⟩

/-! ## read_exact_or_end (src/utils.rs, lines 22-35)

A `Read`er is modelled as the list of bytes it still has to deliver plus a
schedule of per-call grants: a conforming reader may return fewer bytes than
requested (hence the loop in the source), but returns at least one byte
unless it is at end-of-file, and returns 0 exactly at end-of-file. -/

structure ByteReader where
  data : List Nat
  grants : List Nat

/-- One `Read::read` call on a buffer of length `cap`: delivers
`min (min cap remaining) grant` bytes, where the positive `grant` models a
possibly-short read. -/
def ByteReader.read (rd : ByteReader) (cap : Nat) : List Nat × ByteReader :=
  let m := min (min cap rd.data.length) (rd.grants.headD 0 + 1)
  (rd.data.take m, ⟨rd.data.drop m, rd.grants.tail⟩)

/-- The loop of `read_exact_or_end`: keep reading into `buffer[cur_idx..]`
until a read returns 0 or the buffer is full; `acc` are the bytes placed in
the buffer so far. -/
def read_go (buflen : Nat) (rd : ByteReader) (cur : Nat) (acc : List Nat) :
    Nat × List Nat × ByteReader :=
  if (rd.read (buflen - cur)).1.length = 0
      ∨ cur + (rd.read (buflen - cur)).1.length = buflen then
    (cur + (rd.read (buflen - cur)).1.length,
      acc ++ (rd.read (buflen - cur)).1,
      (rd.read (buflen - cur)).2)
  else
    read_go buflen (rd.read (buflen - cur)).2
      (cur + (rd.read (buflen - cur)).1.length)
      (acc ++ (rd.read (buflen - cur)).1)
termination_by buflen - cur
decreasing_by
  simp only [ByteReader.read, List.length_take] at *
  omega

/-- Model of `read_exact_or_end`: returns the byte count, the bytes placed in
the buffer, and the advanced reader. -/
def read_exact_or_end (rd : ByteReader) (buflen : Nat) : Nat × List Nat × ByteReader :=
  read_go buflen rd 0 []

theorem read_go_spec (fuel : Nat) :
    ∀ (buflen : Nat) (rd : ByteReader) (cur : Nat) (acc : List Nat),
      buflen - cur ≤ fuel → cur ≤ buflen →
      (read_go buflen rd cur acc).1
          = cur + min (buflen - cur) rd.data.length
      ∧ (read_go buflen rd cur acc).2.1
          = acc ++ rd.data.take (min (buflen - cur) rd.data.length)
      ∧ (read_go buflen rd cur acc).2.2.data
          = rd.data.drop (min (buflen - cur) rd.data.length) := by
  induction fuel with
  | zero =>
    intro buflen rd cur acc hfuel hcur
    have hbc : buflen = cur := by omega
    subst hbc
    rw [read_go.eq_def]
    simp [ByteReader.read]
  | succ n ih =>
    intro buflen rd cur acc hfuel hcur
    rw [read_go.eq_def]
    simp only [ByteReader.read]
    have hg : 1 ≤ rd.grants.headD 0 + 1 := by omega
    have hltake :
        (rd.data.take
            (min (min (buflen - cur) rd.data.length) (rd.grants.headD 0 + 1))).length
          = min (min (buflen - cur) rd.data.length) (rd.grants.headD 0 + 1) := by
      rw [List.length_take]
      omega
    rw [hltake]
    set m := min (min (buflen - cur) rd.data.length) (rd.grants.headD 0 + 1)
      with hmdef
    by_cases hif : m = 0 ∨ cur + m = buflen
    · rw [if_pos hif]
      have hmin : min (buflen - cur) rd.data.length = m := by omega
      refine ⟨?_, ?_, ?_⟩
      · show cur + m = cur + min (buflen - cur) rd.data.length
        omega
      · show acc ++ rd.data.take m
            = acc ++ rd.data.take (min (buflen - cur) rd.data.length)
        rw [hmin]
      · show rd.data.drop m
            = rd.data.drop (min (buflen - cur) rd.data.length)
        rw [hmin]
    · rw [if_neg hif]
      have hm1 : 1 ≤ m := by omega
      have hmlt : m < buflen - cur := by omega
      obtain ⟨ih1, ih2, ih3⟩ :=
        ih buflen ⟨rd.data.drop m, rd.grants.tail⟩ (cur + m)
          (acc ++ rd.data.take m) (by omega) (by omega)
      simp only [List.length_drop] at ih1 ih2 ih3
      refine ⟨?_, ?_, ?_⟩
      · rw [ih1]; omega
      · rw [ih2]
        rw [List.append_assoc]
        congr 1
        rw [← List.take_add]
        congr 1
        omega
      · rw [ih3]
        rw [List.drop_drop]
        congr 1
        omega

/-- C10: contract of the `read_exact_or_end` helper.  The returned count `n`
is at most the buffer length and equals `min buflen remaining`; the buffer
holds exactly the next `n` bytes of the reader in order; and if `n` is
strictly less than the buffer length the reader has reached end-of-file: all
its bytes were consumed and any subsequent read yields 0 bytes. -/
theorem read_exact_or_end_contract (rd : ByteReader) (buflen cap2 : Nat) :
    (read_exact_or_end rd buflen).1 ≤ buflen
    ∧ (read_exact_or_end rd buflen).1 = min buflen rd.data.length
    ∧ (read_exact_or_end rd buflen).2.1
        = rd.data.take (read_exact_or_end rd buflen).1
    ∧ ((read_exact_or_end rd buflen).1 < buflen →
        rd.data.length = (read_exact_or_end rd buflen).1
        ∧ (((read_exact_or_end rd buflen).2.2).read cap2).1 = []) := by
  obtain ⟨h1, h2, h3⟩ :=
    read_go_spec buflen buflen rd 0 [] (by omega) (by omega)
  unfold read_exact_or_end
  simp only [Nat.sub_zero, Nat.zero_add] at h1 h2 h3
  rw [h1, h2]
  refine ⟨by omega, by omega, by simp, ?_⟩
  intro hlt
  have hlen : min buflen rd.data.length = rd.data.length := by omega
  refine ⟨by omega, ?_⟩
  simp only [ByteReader.read]
  rw [h3]
  simp only [hlen, List.drop_length]
  simp

/-- Witness for C10: the contract applied to a concrete reader holding three
bytes with a short-read schedule and a five-byte buffer. -/
theorem read_exact_or_end_contract_witness :
    (read_exact_or_end ⟨[1, 2, 3], [0]⟩ 5).1 ≤ 5
    ∧ (read_exact_or_end ⟨[1, 2, 3], [0]⟩ 5).1
        = min 5 (([1, 2, 3] : List Nat).length)
    ∧ (read_exact_or_end ⟨[1, 2, 3], [0]⟩ 5).2.1
        = ([1, 2, 3] : List Nat).take (read_exact_or_end ⟨[1, 2, 3], [0]⟩ 5).1
    ∧ ((read_exact_or_end ⟨[1, 2, 3], [0]⟩ 5).1 < 5 →
        ([1, 2, 3] : List Nat).length = (read_exact_or_end ⟨[1, 2, 3], [0]⟩ 5).1
        ∧ (((read_exact_or_end ⟨[1, 2, 3], [0]⟩ 5).2.2).read 4).1 = []) :=
  read_exact_or_end_contract ⟨[1, 2, 3], [0]⟩ 5 4

/-! ## is_same_file (src/main.rs, lines 86-140)

A path's on-disk file is modelled as its symlink-preserving metadata (file
type tag, size, inode number) plus its byte content.  The byte-by-byte loop
streams both files through `read_exact_or_end` with 32 MiB buffers exactly as
the source does; the grant schedules model possibly-short reads. -/

def COMPARE_READ_BUFFSIZE : Nat := 32 * MB

structure FileMeta where
  ftype : Nat
  size : Nat
  ino : Nat
deriving DecidableEq

structure FsFile where
  meta : FileMeta
  content : List Nat
deriving DecidableEq

/-- The comparison loop of `is_same_file`: read a chunk from each side, fail
on the first mismatch, succeed when a chunk came back short of the buffer. -/
def cmpLoop (lrd rrd : ByteReader) : Bool :=
  if h1 : (read_exact_or_end lrd COMPARE_READ_BUFFSIZE).2.1
      ≠ (read_exact_or_end rrd COMPARE_READ_BUFFSIZE).2.1 then false
  else if h2 : (read_exact_or_end lrd COMPARE_READ_BUFFSIZE).1
      ≠ COMPARE_READ_BUFFSIZE then true
  else
    cmpLoop (read_exact_or_end lrd COMPARE_READ_BUFFSIZE).2.2
      (read_exact_or_end rrd COMPARE_READ_BUFFSIZE).2.2
termination_by lrd.data.length
decreasing_by
  obtain ⟨s1, s2, s3⟩ :=
    read_go_spec COMPARE_READ_BUFFSIZE COMPARE_READ_BUFFSIZE lrd 0 []
      (by omega) (by omega)
  have hbuf : COMPARE_READ_BUFFSIZE = 33554432 := by decide
  simp only [read_exact_or_end] at h1 h2 ⊢
  rw [s3, List.length_drop]
  rw [s1] at h2
  omega

/-- Model of `is_same_file`. -/
def is_same_file (left right : FsFile) (lgrants rgrants : List Nat) : Bool :=
  if left.meta.ftype ≠ right.meta.ftype ∨ left.meta.size ≠ right.meta.size then
    false
  else if left.meta.ino = right.meta.ino then
    true
  else
    cmpLoop ⟨left.content, lgrants⟩ ⟨right.content, rgrants⟩

theorem cmpLoop_true_iff (fuel : Nat) :
    ∀ (ld rd lg rg : List Nat), ld.length ≤ fuel → ld.length = rd.length →
      (cmpLoop ⟨ld, lg⟩ ⟨rd, rg⟩ = true ↔ ld = rd) := by
  have hbuf : COMPARE_READ_BUFFSIZE = 33554432 := by decide
  induction fuel with
  | zero =>
    intro ld rd lg rg hf hlen
    have hld : ld = [] := List.eq_nil_of_length_eq_zero (by omega)
    have hrd : rd = [] := List.eq_nil_of_length_eq_zero (by omega)
    subst hld
    subst hrd
    obtain ⟨l1, l2, l3⟩ :=
      read_go_spec COMPARE_READ_BUFFSIZE COMPARE_READ_BUFFSIZE ⟨[], lg⟩ 0 []
        (by omega) (by omega)
    obtain ⟨r1, r2, r3⟩ :=
      read_go_spec COMPARE_READ_BUFFSIZE COMPARE_READ_BUFFSIZE ⟨[], rg⟩ 0 []
        (by omega) (by omega)
    rw [cmpLoop.eq_def]
    simp only [read_exact_or_end]
    rw [dif_neg (by simp [l2, r2])]
    rw [dif_pos (by rw [l1]; simp; omega)]
    simp
  | succ n ih =>
    intro ld rd lg rg hf hlen
    obtain ⟨l1, l2, l3⟩ :=
      read_go_spec COMPARE_READ_BUFFSIZE COMPARE_READ_BUFFSIZE ⟨ld, lg⟩ 0 []
        (by omega) (by omega)
    obtain ⟨r1, r2, r3⟩ :=
      read_go_spec COMPARE_READ_BUFFSIZE COMPARE_READ_BUFFSIZE ⟨rd, rg⟩ 0 []
        (by omega) (by omega)
    simp only [Nat.sub_zero, Nat.zero_add, List.nil_append] at l1 l2 l3 r1 r2 r3
    rw [cmpLoop.eq_def]
    simp only [read_exact_or_end]
    by_cases hlt : ld.length < COMPARE_READ_BUFFSIZE
    · have hnl : min COMPARE_READ_BUFFSIZE ld.length = ld.length := by omega
      have hnr : min COMPARE_READ_BUFFSIZE rd.length = rd.length := by omega
      have htl : ld.take (min COMPARE_READ_BUFFSIZE ld.length) = ld := by
        rw [hnl, List.take_length]
      have htr : rd.take (min COMPARE_READ_BUFFSIZE rd.length) = rd := by
        rw [hnr, List.take_length]
      by_cases heq : ld = rd
      · rw [dif_neg (by rw [l2, r2]; simp [htl, htr, heq])]
        rw [dif_pos (by rw [l1]; omega)]
        simp [heq]
      · rw [dif_pos (by rw [l2, r2, htl, htr]; exact heq)]
        simp [heq]
    · have hnl : min COMPARE_READ_BUFFSIZE ld.length = COMPARE_READ_BUFFSIZE := by
        omega
      have hnr : min COMPARE_READ_BUFFSIZE rd.length = COMPARE_READ_BUFFSIZE := by
        omega
      by_cases htb :
          ld.take COMPARE_READ_BUFFSIZE = rd.take COMPARE_READ_BUFFSIZE
      · rw [dif_neg (by rw [l2, r2, hnl, hnr]; simp [htb])]
        rw [dif_neg (by rw [l1, hnl]; simp)]
        rcases hX : (read_go COMPARE_READ_BUFFSIZE ⟨ld, lg⟩ 0 []).2.2 with ⟨xd, xg⟩
        rcases hY : (read_go COMPARE_READ_BUFFSIZE ⟨rd, rg⟩ 0 []).2.2 with ⟨yd, yg⟩
        rw [hX] at l3
        rw [hY] at r3
        simp only [hnl] at l3
        simp only [hnr] at r3
        subst l3
        subst r3
        rw [ih (ld.drop COMPARE_READ_BUFFSIZE) (rd.drop COMPARE_READ_BUFFSIZE)
          xg yg (by simp; omega) (by simp [hlen])]
        constructor
        · intro hdrop
          calc ld = ld.take COMPARE_READ_BUFFSIZE ++ ld.drop COMPARE_READ_BUFFSIZE := by
                    rw [List.take_append_drop]
            _ = rd.take COMPARE_READ_BUFFSIZE ++ rd.drop COMPARE_READ_BUFFSIZE := by
                    rw [htb, hdrop]
            _ = rd := by rw [List.take_append_drop]
        · intro hcon
          rw [hcon]
      · rw [dif_pos (by rw [l2, r2, hnl, hnr]; exact htb)]
        simp only [Bool.false_eq_true, false_iff]
        intro hcon
        exact htb (by rw [hcon])

/-- C2: contract of the exact-equality verifier.  Under the filesystem
consistency facts (the symlink metadata size of each path is its content
length, both paths are regular files of the same type, and two paths with
the same inode have the same content) the verifier returns true iff the two
contents are byte-identical; a type or size mismatch in the metadata returns
false for every content (no content read); and a shared inode returns true
for every content once the metadata checks pass. -/
theorem is_same_file_contract (l r : FsFile) (lg rg : List Nat) :
    (l.meta.size = l.content.length → r.meta.size = r.content.length →
      l.meta.ftype = r.meta.ftype →
      (l.meta.ino = r.meta.ino → l.content = r.content) →
      (is_same_file l r lg rg = true ↔ l.content = r.content))
    ∧ (l.meta.ftype ≠ r.meta.ftype ∨ l.meta.size ≠ r.meta.size →
        is_same_file l r lg rg = false)
    ∧ (l.meta.ftype = r.meta.ftype → l.meta.size = r.meta.size →
        l.meta.ino = r.meta.ino → is_same_file l r lg rg = true) := by
  refine ⟨?_, ?_, ?_⟩
  · intro hl hr hty hino
    unfold is_same_file
    by_cases hsz : l.meta.size = r.meta.size
    · rw [if_neg (by push_neg; exact ⟨hty, hsz⟩)]
      by_cases hin : l.meta.ino = r.meta.ino
      · rw [if_pos hin]
        simp [hino hin]
      · rw [if_neg hin]
        exact cmpLoop_true_iff l.content.length l.content r.content lg rg
          (le_refl _) (by omega)
    · rw [if_pos (Or.inr hsz)]
      simp only [Bool.false_eq_true, false_iff]
      intro hcon
      exact hsz (by rw [hl, hr, hcon])
  · intro hbad
    unfold is_same_file
    rw [if_pos hbad]
  · intro hty hsz hin
    unfold is_same_file
    rw [if_neg (by push_neg; exact ⟨hty, hsz⟩), if_pos hin]

/-- Concrete three-byte file for the C2 witness. -/
def fileLeft : FsFile := ⟨⟨0, 3, 1⟩, [7, 8, 9]⟩

/-- A second file with the same content on a different inode. -/
def fileRight : FsFile := ⟨⟨0, 3, 2⟩, [7, 8, 9]⟩

/-- Witness for C2: the verifier contract applied to two concrete identical
three-byte files on distinct inodes. -/
theorem is_same_file_contract_witness :
    fileLeft.meta.size = fileLeft.content.length
    ∧ fileRight.meta.size = fileRight.content.length
    ∧ fileLeft.meta.ftype = fileRight.meta.ftype
    ∧ (fileLeft.meta.ino = fileRight.meta.ino →
        fileLeft.content = fileRight.content)
    ∧ (is_same_file fileLeft fileRight [] [] = true
        ↔ fileLeft.content = fileRight.content) :=
  ⟨by decide, by decide, by decide, by decide,
    (is_same_file_contract fileLeft fileRight [] []).1 (by decide) (by decide)
      (by decide) (by decide)⟩

/-! ## FileHashes::from_path (src/hashcache.rs, lines 41-71)

The file is its byte content; `fh.seek(SeekFrom::End(0))` returns the size
and leaves the cursor at end-of-file (the source never rewinds, so the first
read of the sampling loop starts at the end-of-file position).  The streaming
SeaHasher is abstracted by a parameter `seaFinish` that maps the concatenated
written bytes to the final u64 digest. -/

structure FileHashes where
  sea : Nat
  size : Nat
deriving DecidableEq

/-- The sampling loop of `FileHashes::from_path`: read a SAMPLE_SIZE chunk at
the cursor, feed it to the hasher, stop on a short read, otherwise seek
forward by `skiplen` (an i64; seeking before the start of the file is an I/O
error).  The progress guard on `posNext` is unreachable whenever
`skiplen > -SAMPLE_SIZE`, which holds for every skip length the caller can
produce from a u64 file size. -/
def hashLoop (seaFinish : List Nat → Nat) (content : List Nat) (skiplen : Int) :
    Nat → List Nat → Except Unit FileHashes
  | pos, acc =>
    if hfull : ((content.drop pos).take SAMPLE_SIZE).length ≠ SAMPLE_SIZE then
      .ok ⟨seaFinish (acc ++ (content.drop pos).take SAMPLE_SIZE), content.length⟩
    else if hneg : (pos : Int) + SAMPLE_SIZE + skiplen < 0 then
      .error ()
    else if hstep : ((pos : Int) + SAMPLE_SIZE + skiplen).toNat ≤ pos then
      .error ()
    else
      hashLoop seaFinish content skiplen ((pos : Int) + SAMPLE_SIZE + skiplen).toNat
        (acc ++ (content.drop pos).take SAMPLE_SIZE)
termination_by pos => content.length + SAMPLE_SIZE - pos
decreasing_by
  have hss : SAMPLE_SIZE = 8192 := rfl
  simp only [List.length_take, List.length_drop] at hfull
  omega

/-- Model of `FileHashes::from_path`: seek-to-end for the size, compute the
skip length, then run the sampling loop from the end-of-file cursor. -/
def FileHashes.from_path (seaFinish : List Nat → Nat) (content : List Nat) :
    Except Unit FileHashes :=
  hashLoop seaFinish content (calculate_skiplen content.length SAMPLE_SIZE)
    content.length []

/-- C4 counterexample: for an empty regular file `FileHashes::from_path`
returns the perfectly ordinary fingerprint `{ sea := hash of no bytes,
size := 0 }` — a normal successful return, not an invariant violation. -/
theorem from_path_zero_size_counterexample :
    FileHashes.from_path (fun _ => 0) [] = Except.ok ⟨0, 0⟩ := by
  unfold FileHashes.from_path
  rw [hashLoop.eq_def]
  simp [SAMPLE_SIZE]

/-- C4 as amended: computing the fingerprint of a zero-size file is a normal
successful computation for every hasher: the single read at the cursor
returns no bytes, the loop stops, and the ordinary fingerprint with the hash
of the empty byte stream and size 0 is returned. -/
theorem from_path_zero_size_ok (seaFinish : List Nat → Nat) :
    FileHashes.from_path seaFinish [] = Except.ok ⟨seaFinish [], 0⟩ := by
  unfold FileHashes.from_path
  rw [hashLoop.eq_def]
  simp [SAMPLE_SIZE]

/-! ## prompt_bool (src/main.rs, lines 218-223)

The source reads one line from stdin via `stdin().lines().next()`; the line
iterator strips the trailing newline (and a trailing carriage return) but
performs no whitespace trimming.  The model takes that delivered line as
input.  `trimmedLine` is modelled from the spec's words ("the trimmed line"):
it removes leading and trailing whitespace. -/

def YES_RESPONSES : List String := ["y", "Y", "yes", "Yes", "YES"]

/-- Model of `prompt_bool` on the line delivered by the line iterator. -/
def prompt_bool (nextln : String) : Bool := YES_RESPONSES.contains nextln

/-- Whitespace test used by the spec-side trimming. -/
def isWsp (c : Char) : Bool := c = ' ' ∨ c = '\t' ∨ c = '\n' ∨ c = '\r'

/-- Modelled from the spec: the trimmed line (leading and trailing
whitespace removed). -/
def trimmedLine (s : String) : String :=
  ⟨((s.toList.dropWhile isWsp).reverse.dropWhile isWsp).reverse⟩

/-- C9 counterexample: the input line " y" (a space before the y) trims to
"y", which is in the yes-set, yet `prompt_bool` answers false — the source
compares the line exactly as read, without any trimming. -/
theorem prompt_bool_trim_counterexample :
    prompt_bool " y" = false
    ∧ trimmedLine " y" = "y"
    ∧ ("y" ∈ YES_RESPONSES) := by
  refine ⟨by decide, by decide, by decide⟩

/-- C9 as amended: for every input line, the prompt returns true if and only
if the line, exactly as delivered by the line reader (terminator stripped,
no whitespace trimming), case-sensitively matches one of y, Y, yes, Yes,
YES; everything else, including the empty line, yields false. -/
theorem prompt_bool_exact_match (nextln : String) :
    (prompt_bool nextln = true ↔ nextln ∈ YES_RESPONSES)
    ∧ prompt_bool "" = false := by
  constructor
  · unfold prompt_bool
    exact List.elem_iff
  · decide

/-! ## should_link (src/main.rs, lines 181-216)

`fs::metadata` results are modelled as inode and device numbers; the
interactive prompt collaborator is modelled by the boolean `promptAnswer`
that `prompt_bool` would return (the source only invokes it in `Prompt`
mode, through `unwrap_or_else`). -/

inductive ShouldNotRelinkReason where
  | DifferentFilesystems (devL devR : Nat)
  | AlreadyLinked
  | UserSaidNo
deriving DecidableEq

inductive PromptUserMode where
  | DefaultYes
  | DefaultNo
  | Prompt
deriving DecidableEq

/-- Model of `PromptUserMode::as_default`. -/
def PromptUserMode.as_default : PromptUserMode → Option Bool
  | .DefaultNo => some false
  | .DefaultYes => some true
  | .Prompt => none

/-- Stat metadata of a path (the parts `should_link` reads). -/
structure StatMeta where
  ino : Nat
  dev : Nat
deriving DecidableEq

/-- Model of `should_link` on the two paths' metadata.  `Except.ok ()` is the
source's `Ok(Ok(()))` (eligible); `Except.error r` is `Ok(Err(r))`. -/
def should_link (left_meta right_meta : StatMeta) (prompt_mode : PromptUserMode)
    (promptAnswer : Bool) : Except ShouldNotRelinkReason Unit :=
  if left_meta.ino = right_meta.ino then
    .error .AlreadyLinked
  else if left_meta.dev ≠ right_meta.dev then
    .error (.DifferentFilesystems left_meta.dev right_meta.dev)
  else if prompt_mode.as_default.getD promptAnswer then
    .ok ()
  else
    .error .UserSaidNo

/-- C8: decision order of the link-eligibility policy.  A shared inode wins
over everything and yields AlreadyLinked for every mode and prompt answer;
otherwise differing devices yield DifferentFilesystems carrying the left and
right device ids; only otherwise is the mode consulted: DefaultYes is
eligible, DefaultNo is UserSaidNo, and Prompt follows the prompt answer. -/
theorem should_link_decision_order (lm rm : StatMeta) (mode : PromptUserMode)
    (ans : Bool) :
    (lm.ino = rm.ino →
      should_link lm rm mode ans = .error .AlreadyLinked)
    ∧ (lm.ino ≠ rm.ino → lm.dev ≠ rm.dev →
        should_link lm rm mode ans
          = .error (.DifferentFilesystems lm.dev rm.dev))
    ∧ (lm.ino ≠ rm.ino → lm.dev = rm.dev →
        should_link lm rm .DefaultYes ans = .ok ()
        ∧ should_link lm rm .DefaultNo ans = .error .UserSaidNo
        ∧ should_link lm rm .Prompt ans
            = (if ans then .ok () else .error .UserSaidNo)) := by
  refine ⟨?_, ?_, ?_⟩
  · intro hino
    unfold should_link
    rw [if_pos hino]
  · intro hino hdev
    unfold should_link
    rw [if_neg hino, if_pos hdev]
  · intro hino hdev
    refine ⟨?_, ?_, ?_⟩
    · unfold should_link
      rw [if_neg hino, if_neg (by omega), if_pos (by rfl)]
    · unfold should_link
      rw [if_neg hino, if_neg (by omega)]
      simp [PromptUserMode.as_default]
    · unfold should_link
      rw [if_neg hino, if_neg (by omega)]
      simp [PromptUserMode.as_default]

/-- Witness for C8: the decision order applied to two inodes 1 and 2 on the
same device 5 in Prompt mode with a yes answer. -/
theorem should_link_decision_order_witness :
    ((⟨1, 5⟩ : StatMeta).ino = (⟨2, 5⟩ : StatMeta).ino →
      should_link ⟨1, 5⟩ ⟨2, 5⟩ .Prompt true
        = .error .AlreadyLinked)
    ∧ ((⟨1, 5⟩ : StatMeta).ino ≠ (⟨2, 5⟩ : StatMeta).ino →
        (⟨1, 5⟩ : StatMeta).dev ≠ (⟨2, 5⟩ : StatMeta).dev →
        should_link ⟨1, 5⟩ ⟨2, 5⟩ .Prompt true
          = .error (.DifferentFilesystems 5 5))
    ∧ ((⟨1, 5⟩ : StatMeta).ino ≠ (⟨2, 5⟩ : StatMeta).ino →
        (⟨1, 5⟩ : StatMeta).dev = (⟨2, 5⟩ : StatMeta).dev →
        should_link ⟨1, 5⟩ ⟨2, 5⟩ .DefaultYes true = .ok ()
        ∧ should_link ⟨1, 5⟩ ⟨2, 5⟩ .DefaultNo true = .error .UserSaidNo
        ∧ should_link ⟨1, 5⟩ ⟨2, 5⟩ .Prompt true
            = (if true then .ok () else .error .UserSaidNo)) :=
  should_link_decision_order ⟨1, 5⟩ ⟨2, 5⟩ .Prompt true

/-! ## hard_link (src/utils.rs, lines 43-61)

The filesystem is a map from paths to inode numbers plus a map from inode
numbers to contents; hardlinked paths share an inode.  `fs::rename` moves the
source's link to the destination (failing when the source is missing),
`fs::hard_link` creates a new link to the source's inode and fails when the
source is missing, when the destination already exists, or when the oracle
`linkFail` says so (modelling EPERM, ENOSPC and friends), and
`fs::remove_file` drops a link.

The backup path is `right.with_extension(right.extension() + ".bak")`, whose
net effect on a path string is: append ".bak" when the file name has an
extension (a dot after its first character — the stem and the old extension
are put back unchanged), and append "..bak" when it has none (nothing is
stripped and the new extension "(empty).bak" is attached after a dot). -/

/-- Characters of the file name: the part of the path after the last
slash. -/
def fileNameOf (p : String) : List Char :=
  (p.toList.reverse.takeWhile fun c => c ≠ '/').reverse

/-- Whether Rust's `Path::extension` is `Some` for this path: the file name
has a dot after its first character. -/
def hasFileExt (p : String) : Bool := ((fileNameOf p).drop 1).contains '.'

/-- The backup path `tmp_right_path` computed by the source. -/
def backupPath (p : String) : String :=
  if hasFileExt p then p ++ ".bak" else p ++ "..bak"

structure Fs where
  link : String → Option Nat
  inodeData : Nat → List Nat

/-- Model of `fs::exists`. -/
def Fs.exists_at (fs : Fs) (p : String) : Bool := (fs.link p).isSome

/-- Model of `fs::rename` (the success case; the caller checks the source
exists). -/
def Fs.rename (fs : Fs) (src dst : String) : Fs :=
  { fs with
    link := fun q => if q = dst then fs.link src
      else if q = src then none else fs.link q }

/-- Model of `fs::hard_link`: fails when the oracle says so, when the source
is missing, or when the destination already exists. -/
def Fs.hard_link (fs : Fs) (src dst : String) (linkFail : Bool) : Option Fs :=
  match fs.link src with
  | none => none
  | some ino =>
    if linkFail ∨ (fs.link dst).isSome then none
    else some { fs with link := fun q => if q = dst then some ino else fs.link q }

/-- Model of `fs::remove_file` (the success case). -/
def Fs.remove_file (fs : Fs) (p : String) : Fs :=
  { fs with link := fun q => if q = p then none else fs.link q }

/-- The content visible at a path. -/
def Fs.contentAt (fs : Fs) (p : String) : Option (List Nat) :=
  (fs.link p).map fs.inodeData

/-- Outcome of the safe-link replacement: `Ok(())` or a propagated error,
together with the filesystem state it leaves behind. -/
inductive LinkResult where
  | ok (fs : Fs)
  | err (fs : Fs)

def LinkResult.isOk : LinkResult → Bool
  | .ok _ => true
  | .err _ => false

/-- The filesystem state carried by either outcome. -/
def LinkResult.state : LinkResult → Fs
  | .ok fs => fs
  | .err fs => fs

/-- Model of the `hard_link` wrapper: back up `right` by renaming it to the
backup path (only when no file exists there), create the hardlink at `right`
pointing at `left`, and remove the backup only after the link succeeded.
Every `?` of the source returns the error with the filesystem as it stands
at that point. -/
def hard_link (fs : Fs) (left right : String) (linkFail : Bool) : LinkResult :=
  if fs.exists_at (backupPath right) = false then
    match fs.link right with
    | none => .err fs
    | some _ =>
      match (fs.rename right (backupPath right)).hard_link left right linkFail with
      | none => .err (fs.rename right (backupPath right))
      | some fs2 => .ok (fs2.remove_file (backupPath right))
  else
    match fs.hard_link left right linkFail with
    | none => .err fs
    | some fs2 => .ok fs2

/-- C1: postcondition and error atomicity of the safe-link replacer, for any
pair of existing files.  On success, `right` and `left` share an inode and no
file remains at the backup path.  If the hardlink step fails after the backup
rename was performed (the backup path was free, so `right` was renamed onto
it), the wrapper returns the error with the state exactly as the rename left
it: the backup file exists at the backup path, holds the original content of
`right`, and is not deleted. -/
theorem hard_link_replacer_safe (fs : Fs) (l r : String) (lf : Bool)
    (hl : fs.exists_at l = true) (hr : fs.exists_at r = true) :
    ((hard_link fs l r lf).isOk = true →
      ((hard_link fs l r lf).state.link r = (hard_link fs l r lf).state.link l
        ∧ ((hard_link fs l r lf).state.link r).isSome = true
        ∧ (hard_link fs l r lf).state.link (backupPath r) = none))
    ∧ (fs.exists_at (backupPath r) = false →
        ((fs.rename r (backupPath r)).hard_link l r lf).isNone = true →
        ((hard_link fs l r lf).isOk = false
          ∧ (hard_link fs l r lf).state.exists_at (backupPath r) = true
          ∧ (hard_link fs l r lf).state.contentAt (backupPath r)
              = fs.contentAt r)) := by
  by_cases hb : fs.exists_at (backupPath r) = false
  · have hrneq : r ≠ backupPath r := by
      intro hcon
      rw [hcon] at hr
      rw [hr] at hb
      simp at hb
    have hlneq : l ≠ backupPath r := by
      intro hcon
      rw [hcon] at hl
      rw [hl] at hb
      simp at hb
    obtain ⟨ir, hir⟩ : ∃ ir, fs.link r = some ir := by
      unfold Fs.exists_at at hr
      cases h : fs.link r with
      | none => rw [h] at hr; simp at hr
      | some v => exact ⟨v, rfl⟩
    unfold hard_link
    rw [if_pos hb, hir]
    cases hstep : (fs.rename r (backupPath r)).hard_link l r lf with
    | none =>
      refine ⟨?_, ?_⟩
      · intro hok
        simp [LinkResult.isOk] at hok
      · intro _ _
        refine ⟨rfl, ?_, ?_⟩
        · simp [LinkResult.state, Fs.exists_at, Fs.rename, hir]
        · simp [LinkResult.state, Fs.contentAt, Fs.rename, hir]
    | some fs2 =>
      refine ⟨?_, ?_⟩
      · intro _
        obtain ⟨il, hil, hrnone, hfs2⟩ :
            ∃ il, (fs.rename r (backupPath r)).link l = some il
              ∧ ((fs.rename r (backupPath r)).link r).isSome = false
              ∧ fs2 = { fs.rename r (backupPath r) with
                  link := fun q => if q = r then some il
                    else (fs.rename r (backupPath r)).link q } := by
          unfold Fs.hard_link at hstep
          split at hstep
          · exact absurd hstep (by simp)
          · rename_i ino hcl
            split at hstep
            · exact absurd hstep (by simp)
            · rename_i hfail
              push_neg at hfail
              refine ⟨ino, hcl, by simpa using hfail.2, by simpa using hstep.symm⟩
        have hlr : l ≠ r := by
          intro hcon
          rw [hcon] at hil
          rw [hil] at hrnone
          simp at hrnone
        refine ⟨?_, ?_, ?_⟩
        · simp [LinkResult.state, Fs.remove_file, hfs2, hrneq, hlneq, hlr,
            Ne.symm hlr, hil]
        · simp [LinkResult.state, Fs.remove_file, hfs2, hrneq, hil]
        · simp [LinkResult.state, Fs.remove_file, hfs2]
      · intro _ hnone
        simp at hnone
  · unfold hard_link
    rw [if_neg hb]
    obtain ⟨il, hil⟩ : ∃ il, fs.link l = some il := by
      unfold Fs.exists_at at hl
      cases h : fs.link l with
      | none => rw [h] at hl; simp at hl
      | some v => exact ⟨v, rfl⟩
    have hstep : fs.hard_link l r lf = none := by
      have hrs : (fs.link r).isSome = true := by
        unfold Fs.exists_at at hr
        exact hr
      unfold Fs.hard_link
      rw [hil]
      simp [hrs]
    rw [hstep]
    refine ⟨?_, ?_⟩
    · intro hok
      simp [LinkResult.isOk] at hok
    · intro hcon
      rw [hcon] at hb
      simp at hb

/-- Concrete filesystem for the C1 witness: paths "a" and "b" on inodes 1
and 2; inode i holds the single byte i. -/
def fsA : Fs :=
  { link := fun p => if p = "a" then some 1 else if p = "b" then some 2 else none,
    inodeData := fun i => [i] }

/-- Witness for C1: on the concrete filesystem, with the hardlink step made
to fail (oracle true) after the backup rename of "b", the wrapper reports the
error and the backup file "b..bak" exists and holds the original content of
"b". -/
theorem hard_link_replacer_safe_witness :
    fsA.exists_at "a" = true
    ∧ fsA.exists_at "b" = true
    ∧ fsA.exists_at (backupPath "b") = false
    ∧ ((fsA.rename "b" (backupPath "b")).hard_link "a" "b" true).isNone = true
    ∧ ((hard_link fsA "a" "b" true).isOk = false
        ∧ (hard_link fsA "a" "b" true).state.exists_at (backupPath "b") = true
        ∧ (hard_link fsA "a" "b" true).state.contentAt (backupPath "b")
            = fsA.contentAt "b") :=
  ⟨by decide, by decide, by decide, by decide,
    (hard_link_replacer_safe fsA "a" "b" true (by decide) (by decide)).2
      (by decide) (by decide)⟩

/-! ## HashCache (src/hashcache.rs, lines 74-131)

The `HashMap<FileHashes, HashSet<PathBuf>>` is modelled as its association
list with distinct keys in arbitrary order; a `HashSet<PathBuf>` as its list
of distinct elements in insertion order.  The claims compare caches as
key-to-path-set mappings, which is what `HashCache.memOf` reads off. -/

/-- A `HashSet` of paths: insertion-ordered list of distinct elements. -/
abbrev PathSet := List String

/-- Model of `HashSet::insert`. -/
def PathSet.insert (s : PathSet) (p : String) : PathSet :=
  if p ∈ s then s else s ++ [p]

/-- Model of `HashSet::extend`: insert every element of `other`. -/
def PathSet.extend (s other : PathSet) : PathSet :=
  other.foldl PathSet.insert s

/-- The association list behind the `HashMap` of a `HashCache`. -/
abbrev HashCache := List (FileHashes × PathSet)

/-- Lookup in the `HashMap`. -/
def HashCache.find : HashCache → FileHashes → Option PathSet
  | [], _ => none
  | (k1, s) :: rest, k => if k1 = k then some s else HashCache.find rest k

/-- Model of `self.inner.entry(k).or_default().extend(v)`: extend the set at `k`
(created empty when absent) with `v`. -/
def HashCache.entryExtend : HashCache → FileHashes → PathSet → HashCache
  | [], k, v => [(k, PathSet.extend [] v)]
  | (k1, s) :: rest, k, v =>
    if k1 = k then (k1, PathSet.extend s v) :: rest
    else (k1, s) :: HashCache.entryExtend rest k v

/-- Model of `HashCache::insert`: `entry(hashes).or_default().insert(path)`
(inserting one path is extending by the singleton). -/
def HashCache.insert (c : HashCache) (path : String) (hashes : FileHashes) :
    HashCache :=
  HashCache.entryExtend c hashes [path]

/-- Model of `HashCache::join`: fold `entry(k).or_default().extend(v)` over
the other cache's entries. -/
def HashCache.join (a b : HashCache) : HashCache :=
  b.foldl (fun acc kv => HashCache.entryExtend acc kv.1 kv.2) a

/-- Model of `FromIterator<HashCache> for HashCache`: fold `join` starting
from the empty cache. -/
def HashCache.fromCaches (l : List HashCache) : HashCache :=
  l.foldl HashCache.join []

/-- The keys of the cache (distinct, by the `HashMap` invariant). -/
def HashCache.keys (c : HashCache) : List FileHashes := c.map Prod.fst

/-- The fingerprint-to-path-set mapping of a cache, read as membership: is
`p` in the set at key `k` (absent keys denote the empty set)? -/
def HashCache.memOf (c : HashCache) (k : FileHashes) (p : String) : Prop :=
  p ∈ (HashCache.find c k).getD []

/-- Model of `HashCache::duplicates`: every value set of size at least 2. -/
def HashCache.duplicates (c : HashCache) : List PathSet :=
  (c.map Prod.snd).filter fun s => 2 ≤ s.length

theorem PathSet.mem_insert (s : PathSet) (x p : String) :
    p ∈ PathSet.insert s x ↔ p ∈ s ∨ p = x := by
  unfold PathSet.insert
  split
  · rename_i hx
    constructor
    · exact Or.inl
    · rintro (h | h)
      · exact h
      · rw [h]; exact hx
  · simp

theorem PathSet.mem_extend (v : PathSet) :
    ∀ (s : PathSet) (p : String), p ∈ PathSet.extend s v ↔ p ∈ s ∨ p ∈ v := by
  induction v with
  | nil => intro s p; simp [PathSet.extend]
  | cons x v ih =>
    intro s p
    have hloop : PathSet.extend s (x :: v) = PathSet.extend (PathSet.insert s x) v := by
      simp [PathSet.extend]
    rw [hloop, ih, PathSet.mem_insert]
    constructor
    · rintro ((h | h) | h)
      · exact Or.inl h
      · exact Or.inr (by simp [h])
      · exact Or.inr (by simp [h])
    · rintro (h | h)
      · exact Or.inl (Or.inl h)
      · rcases List.mem_cons.1 h with h | h
        · exact Or.inl (Or.inr h)
        · exact Or.inr h

theorem HashCache.find_entryExtend (c : HashCache) (k k0 : FileHashes) (v : PathSet) :
    HashCache.find (HashCache.entryExtend c k v) k0
      = if k = k0 then
          some (PathSet.extend ((HashCache.find c k).getD []) v)
        else HashCache.find c k0 := by
  induction c with
  | nil =>
    by_cases hk : k = k0
    · subst hk; simp [HashCache.entryExtend, HashCache.find]
    · simp [HashCache.entryExtend, HashCache.find, hk]
  | cons hd rest ih =>
    obtain ⟨k1, s1⟩ := hd
    by_cases h1 : k1 = k
    · subst h1
      by_cases hk : k1 = k0
      · subst hk
        simp [HashCache.entryExtend, HashCache.find]
      · simp [HashCache.entryExtend, HashCache.find, hk]
    · by_cases hk : k1 = k0
      · subst hk
        have hkk : ¬ k = k1 := fun hcon => h1 hcon.symm
        simp [HashCache.entryExtend, HashCache.find, h1, hkk]
      · simp [HashCache.entryExtend, HashCache.find, h1, hk, ih]

theorem HashCache.memOf_entryExtend (c : HashCache) (k k0 : FileHashes)
    (v : PathSet) (p : String) :
    HashCache.memOf (HashCache.entryExtend c k v) k0 p
      ↔ HashCache.memOf c k0 p ∨ (k0 = k ∧ p ∈ v) := by
  unfold HashCache.memOf
  rw [HashCache.find_entryExtend]
  by_cases hk : k = k0
  · subst hk
    simp [PathSet.mem_extend]
  · have hkk : ¬ k0 = k := fun hcon => hk hcon.symm
    simp [hk, hkk]

theorem HashCache.find_eq_none (c : HashCache) (k : FileHashes)
    (h : k ∉ HashCache.keys c) : HashCache.find c k = none := by
  induction c with
  | nil => rfl
  | cons hd rest ih =>
    obtain ⟨k1, s1⟩ := hd
    simp [HashCache.keys] at h
    unfold HashCache.find
    rw [if_neg (fun hcon => h.1 hcon.symm)]
    exact ih (by simp [HashCache.keys, h.2])

theorem HashCache.keys_entryExtend (c : HashCache) (k : FileHashes) (v : PathSet) :
    HashCache.keys (HashCache.entryExtend c k v)
      = if k ∈ HashCache.keys c then HashCache.keys c
        else HashCache.keys c ++ [k] := by
  induction c with
  | nil => simp [HashCache.entryExtend, HashCache.keys]
  | cons hd rest ih =>
    obtain ⟨k1, s1⟩ := hd
    by_cases h1 : k1 = k
    · subst h1
      simp [HashCache.entryExtend, HashCache.keys]
    · have hkk : ¬ k = k1 := fun hcon => h1 hcon.symm
      have ihk := ih
      simp only [HashCache.keys] at ihk ⊢
      simp only [HashCache.entryExtend, if_neg h1, List.map_cons, ihk]
      by_cases hmem : k ∈ List.map Prod.fst rest
      · simp [hmem, hkk]
      · simp [hmem, hkk]

theorem HashCache.nodup_keys_entryExtend (c : HashCache) (k : FileHashes)
    (v : PathSet) (h : (HashCache.keys c).Nodup) :
    (HashCache.keys (HashCache.entryExtend c k v)).Nodup := by
  rw [HashCache.keys_entryExtend]
  split
  · exact h
  · rename_i hk
    simp [List.nodup_append, h, hk]

theorem HashCache.nodup_keys_join (b : HashCache) :
    ∀ a : HashCache, (HashCache.keys a).Nodup →
      (HashCache.keys (HashCache.join a b)).Nodup := by
  induction b with
  | nil => intro a ha; exact ha
  | cons hd rest ih =>
    intro a ha
    have := ih (HashCache.entryExtend a hd.1 hd.2)
      (HashCache.nodup_keys_entryExtend a hd.1 hd.2 ha)
    simpa [HashCache.join] using this

theorem HashCache.memOf_join (b : HashCache) :
    ∀ (a : HashCache) (k : FileHashes) (p : String),
      (HashCache.keys b).Nodup →
      (HashCache.memOf (HashCache.join a b) k p
        ↔ HashCache.memOf a k p ∨ HashCache.memOf b k p) := by
  induction b with
  | nil =>
    intro a k p _
    simp [HashCache.join, HashCache.memOf, HashCache.find]
  | cons hd rest ih =>
    intro a k p hnd
    obtain ⟨k1, v1⟩ := hd
    have hnd2 : (HashCache.keys rest).Nodup := by
      simp [HashCache.keys, List.nodup_cons] at hnd
      simpa [HashCache.keys] using hnd.2
    have hk1 : k1 ∉ HashCache.keys rest := by
      simp [HashCache.keys, List.nodup_cons] at hnd
      simpa [HashCache.keys] using hnd.1
    have hih := ih (HashCache.entryExtend a k1 v1) k p hnd2
    have hstep : HashCache.memOf (HashCache.join a ((k1, v1) :: rest)) k p
        ↔ HashCache.memOf (HashCache.join (HashCache.entryExtend a k1 v1) rest) k p := by
      simp [HashCache.join]
    rw [hstep, hih, HashCache.memOf_entryExtend]
    by_cases hk : k = k1
    · subst hk
      have hrest : ¬ HashCache.memOf rest k p := by
        unfold HashCache.memOf
        rw [HashCache.find_eq_none rest k hk1]
        simp
      have hcons : HashCache.memOf ((k, v1) :: rest) k p ↔ p ∈ v1 := by
        have hfind : HashCache.find ((k, v1) :: rest) k = some v1 := by
          have hmatch : HashCache.find ((k, v1) :: rest) k
              = if k = k then some v1 else HashCache.find rest k := rfl
          rw [hmatch, if_pos rfl]
        unfold HashCache.memOf
        rw [hfind]
        simp
      rw [hcons]
      tauto
    · have hcons : HashCache.memOf ((k1, v1) :: rest) k p
          ↔ HashCache.memOf rest k p := by
        have hfind : HashCache.find ((k1, v1) :: rest) k = HashCache.find rest k := by
          have hmatch : HashCache.find ((k1, v1) :: rest) k
              = if k1 = k then some v1 else HashCache.find rest k := rfl
          rw [hmatch, if_neg (fun hcon => hk hcon.symm)]
        unfold HashCache.memOf
        rw [hfind]
      rw [hcons]
      have hkk : ¬ (k = k1 ∧ p ∈ v1) := fun hcon => hk hcon.1
      tauto

/-- C7: join is commutative and associative on the fingerprint-to-path-set
mappings.  For caches with the HashMap invariant (distinct keys), joining in
either order and either grouping yields the same mapping: the same paths sit
under the same fingerprint, so independently built caches fold into one with
no ordering dependency. -/
theorem hashcache_join_comm_assoc (a b c : HashCache) (k : FileHashes)
    (p : String) (ha : (HashCache.keys a).Nodup) (hb : (HashCache.keys b).Nodup)
    (hc : (HashCache.keys c).Nodup) :
    (HashCache.memOf (HashCache.join a b) k p
      ↔ HashCache.memOf (HashCache.join b a) k p)
    ∧ (HashCache.memOf (HashCache.join (HashCache.join a b) c) k p
        ↔ HashCache.memOf (HashCache.join a (HashCache.join b c)) k p) := by
  constructor
  · rw [HashCache.memOf_join b a k p hb, HashCache.memOf_join a b k p ha]
    tauto
  · rw [HashCache.memOf_join c (HashCache.join a b) k p hc,
      HashCache.memOf_join b a k p hb,
      HashCache.memOf_join (HashCache.join b c) a k p
        (HashCache.nodup_keys_join c b hb),
      HashCache.memOf_join c b k p hc]
    tauto

/-- Concrete cache for the C7 witness: fingerprint (1, 10) maps to path
"p". -/
def cacheA : HashCache := [(⟨1, 10⟩, ["p"])]

/-- Concrete cache sharing fingerprint (1, 10) and adding (2, 20). -/
def cacheB : HashCache := [(⟨1, 10⟩, ["q"]), (⟨2, 20⟩, ["r"])]

/-- Concrete cache with fingerprint (2, 20) only. -/
def cacheC : HashCache := [(⟨2, 20⟩, ["s"])]

/-- Witness for C7: the commutativity and associativity of join applied to
three concrete caches at the shared fingerprint (1, 10) and path "q". -/
theorem hashcache_join_comm_assoc_witness :
    (HashCache.keys cacheA).Nodup
    ∧ (HashCache.keys cacheB).Nodup
    ∧ (HashCache.keys cacheC).Nodup
    ∧ ((HashCache.memOf (HashCache.join cacheA cacheB) ⟨1, 10⟩ "q"
          ↔ HashCache.memOf (HashCache.join cacheB cacheA) ⟨1, 10⟩ "q")
        ∧ (HashCache.memOf
              (HashCache.join (HashCache.join cacheA cacheB) cacheC) ⟨1, 10⟩ "q"
            ↔ HashCache.memOf
              (HashCache.join cacheA (HashCache.join cacheB cacheC)) ⟨1, 10⟩ "q")) :=
  ⟨by decide, by decide, by decide,
    hashcache_join_comm_assoc cacheA cacheB cacheC ⟨1, 10⟩ "q"
      (by decide) (by decide) (by decide)⟩

/-! ## dedup_files (src/main.rs, lines 271-351)

The per-pair collaborators are oracles: the result of `is_same_file`, the
result of `should_link`, and the success of the `hard_link` wrapper.  The
eligibility step is not total: in `Prompt` mode `should_link` calls
`prompt_bool`, whose `stdin().lines().next().unwrap().unwrap()` panics when
stdin is at end-of-file or a read fails; that panic unwinds out of
`dedup_files` and ends the whole run.  The oracle therefore has a fourth
eligibility outcome `aborted` for that panic, and `dedup_files` is modelled
as the trace of processed pairs paired with a flag that is true when the run
was aborted by such a panic (everything after the aborting pair is never
processed).  Every other arm of the source's match chains is a `continue` or
a fall-through, so each non-aborting pair contributes exactly one event. -/

inductive CmpOutcome where
  | isSame
  | notSame
  | ioFailure
deriving DecidableEq

inductive EligOutcome where
  | ioFailure
  | notEligible (reason : ShouldNotRelinkReason)
  | eligible
  | aborted
deriving DecidableEq

/-- Per-pair outcomes of the three collaborators.  `elig` returns `aborted`
when the eligibility check reaches the interactive prompt and the unwraps in
`prompt_bool` panic (stdin end-of-file or read error). -/
structure PairOracle where
  cmp : String → String → CmpOutcome
  elig : String → String → EligOutcome
  linkOk : String → String → Bool

inductive PairStep where
  | comparedDifferent
  | compareFailed
  | checkFailed
  | skipped (reason : ShouldNotRelinkReason)
  | linked
  | linkFailed
deriving DecidableEq

/-- The loop body of `dedup_files` for one pair: compare, check eligibility,
link.  Every returned failure is logged and skipped (one event); a panic in
the prompt interaction is the `Except.error` case and aborts the caller. -/
def processPair (o : PairOracle) (left right : String) :
    Except Unit PairStep :=
  match o.cmp left right with
  | .notSame => .ok .comparedDifferent
  | .ioFailure => .ok .compareFailed
  | .isSame =>
    match o.elig left right with
    | .aborted => .error ()
    | .ioFailure => .ok .checkFailed
    | .notEligible reason => .ok (.skipped reason)
    | .eligible => .ok (if o.linkOk left right then .linked else .linkFailed)

/-- The `left < right` comparison of the source: `Ord` on `PathBuf` is
byte-lexicographic, which on the character lists of the two paths is
character-lexicographic (UTF-8 preserves code-point order).  Written
structurally so that the kernel can evaluate it. -/
def pathLt : List Char → List Char → Bool
  | [], [] => false
  | [], _ :: _ => true
  | _ :: _, [] => false
  | a :: as, b :: bs =>
    if a < b then true
    else if b < a then false
    else pathLt as bs

/-- The candidate pairs of one duplicate group: all ordered pairs, self-pairs
filtered out, normalised so the lexicographically smaller path is on the
left, collected into a set (modelled as insertion-ordered deduplication). -/
def pairsOf (flist : List String) : List (String × String) :=
  (((flist.flatMap fun left => flist.map fun right => (left, right)).filter
      fun pr => pr.1 ≠ pr.2).map
      fun pr => if pathLt pr.1.toList pr.2.toList then pr else (pr.2, pr.1)).foldl
    (fun acc pr => if pr ∈ acc then acc else acc ++ [pr]) []

/-- The inner pair loop of `dedup_files`: each pair yields its event and the
loop continues, except that a panic in the pair body unwinds immediately
(the remaining pairs produce nothing and the abort flag is set). -/
def runPairs (o : PairOracle) :
    List (String × String) → List ((String × String) × PairStep) × Bool
  | [] => ([], false)
  | pr :: rest =>
    if pr.1 = pr.2 then runPairs o rest
    else
      match processPair o pr.1 pr.2 with
      | .error _ => ([], true)
      | .ok st => ((pr, st) :: (runPairs o rest).1, (runPairs o rest).2)

/-- The outer group loop of `dedup_files`: groups of at most one path are
skipped; a panic inside a group's pair loop unwinds past all remaining
groups. -/
def runGroups (o : PairOracle) :
    List PathSet → List ((String × String) × PairStep) × Bool
  | [] => ([], false)
  | flist :: rest =>
    if flist.length ≤ 1 then runGroups o rest
    else if (runPairs o (pairsOf flist)).2 then
      ((runPairs o (pairsOf flist)).1, true)
    else
      ((runPairs o (pairsOf flist)).1 ++ (runGroups o rest).1,
        (runGroups o rest).2)

/-- Model of `dedup_files`: the trace of processed pairs and their events
over every duplicate group of the cache, plus the flag recording whether a
prompt-interaction panic aborted the run. -/
def dedup_files (cache : HashCache) (o : PairOracle) :
    List ((String × String) × PairStep) × Bool :=
  runGroups o (HashCache.duplicates cache)

theorem mem_foldl_dedup (l : List (String × String)) :
    ∀ (acc : List (String × String)) (pr : String × String),
      pr ∈ l.foldl (fun acc x => if x ∈ acc then acc else acc ++ [x]) acc →
      pr ∈ acc ∨ pr ∈ l := by
  induction l with
  | nil => intro acc pr h; exact Or.inl h
  | cons x l ih =>
    intro acc pr h
    rcases ih _ pr h with hmem | hmem
    · change pr ∈ (if x ∈ acc then acc else acc ++ [x]) at hmem
      by_cases hx : x ∈ acc
      · rw [if_pos hx] at hmem
        exact Or.inl hmem
      · rw [if_neg hx] at hmem
        rcases List.mem_append.1 hmem with h2 | h2
        · exact Or.inl h2
        · exact Or.inr (by simp at h2; simp [h2])
    · exact Or.inr (by simp [hmem])

theorem pairsOf_ne (flist : List String) (pr : String × String)
    (h : pr ∈ pairsOf flist) : pr.1 ≠ pr.2 := by
  unfold pairsOf at h
  rcases mem_foldl_dedup _ [] pr h with hmem | hmem
  · simp at hmem
  · rcases List.mem_map.1 hmem with ⟨q, hq, hqe⟩
    have hqne : q.1 ≠ q.2 := by
      have := (List.mem_filter.1 hq).2
      simpa using this
    by_cases hlt : pathLt q.1.toList q.2.toList = true
    · rw [if_pos hlt] at hqe
      rw [← hqe]
      exact hqne
    · rw [if_neg hlt] at hqe
      rw [← hqe]
      exact fun hcon => hqne hcon.symm

/-- Concrete cache for the C5 counterexample and witness: one duplicate
group of the three paths "a", "b", "c". -/
def cacheD : HashCache := [(⟨3, 30⟩, ["a", "b", "c"])]

/-- Oracle in which every pair verifies as identical and the first pair's
prompt interaction panics (stdin at end-of-file in Prompt mode). -/
def abortOracle : PairOracle :=
  { cmp := fun _ _ => .isSame,
    elig := fun l r => if l = "a" ∧ r = "b" then .aborted else .eligible,
    linkOk := fun _ _ => true }

/-- Oracle in which every pair verifies as identical, is eligible, and
links. -/
def keepOracle : PairOracle :=
  { cmp := fun _ _ => .isSame,
    elig := fun _ _ => .eligible,
    linkOk := fun _ _ => false }

/-- Oracle in which every comparison says the files differ. -/
def declineOracle : PairOracle :=
  { cmp := fun _ _ => .notSame,
    elig := fun _ _ => .notEligible .UserSaidNo,
    linkOk := fun _ _ => false }

/-- C5 counterexample: the claim as stated is false.  The group "a","b","c"
enumerates three candidate pairs; when the first pair's prompt interaction
panics (the unwraps of `prompt_bool` at stdin end-of-file, reachable in the
default Prompt mode), the run aborts: the trace is empty, the remaining
pairs ("a","c") and ("b","c") are never processed, and `dedup_files` does
not run to completion — while the same cache under a non-aborting oracle
processes all three pairs. -/
theorem dedup_files_abort_counterexample :
    pairsOf ["a", "b", "c"] = [("a", "b"), ("a", "c"), ("b", "c")]
    ∧ (dedup_files cacheD abortOracle).1 = []
    ∧ (dedup_files cacheD abortOracle).2 = true
    ∧ List.map Prod.fst (dedup_files cacheD keepOracle).1
        = [("a", "b"), ("a", "c"), ("b", "c")] := by
  refine ⟨by decide, by decide, by decide, by decide⟩

theorem processPair_ok (o : PairOracle)
    (h : ∀ l r, o.elig l r ≠ EligOutcome.aborted) (l r : String) :
    ∃ st, processPair o l r = Except.ok st := by
  unfold processPair
  cases hc : o.cmp l r
  · cases he : o.elig l r
    · exact ⟨.checkFailed, rfl⟩
    · exact ⟨.skipped _, rfl⟩
    · exact ⟨if o.linkOk l r then .linked else .linkFailed, rfl⟩
    · exact absurd he (h l r)
  · exact ⟨.comparedDifferent, rfl⟩
  · exact ⟨.compareFailed, rfl⟩

theorem runPairs_spec (o : PairOracle)
    (h : ∀ l r, o.elig l r ≠ EligOutcome.aborted) :
    ∀ l : List (String × String),
      (runPairs o l).2 = false
      ∧ List.map Prod.fst (runPairs o l).1
          = l.filter fun pr => pr.1 ≠ pr.2 := by
  intro l
  induction l with
  | nil => exact ⟨rfl, rfl⟩
  | cons pr rest ih =>
    have hred : runPairs o (pr :: rest)
        = if pr.1 = pr.2 then runPairs o rest
          else
            match processPair o pr.1 pr.2 with
            | .error _ => ([], true)
            | .ok st =>
              ((pr, st) :: (runPairs o rest).1, (runPairs o rest).2) := rfl
    by_cases hpr : pr.1 = pr.2
    · have hstep : runPairs o (pr :: rest) = runPairs o rest := by
        rw [hred, if_pos hpr]
      rw [hstep]
      refine ⟨ih.1, ?_⟩
      rw [ih.2]
      simp [List.filter_cons, hpr]
    · obtain ⟨st, hst⟩ := processPair_ok o h pr.1 pr.2
      have hstep : runPairs o (pr :: rest)
          = ((pr, st) :: (runPairs o rest).1, (runPairs o rest).2) := by
        rw [hred, if_neg hpr, hst]
      rw [hstep]
      refine ⟨ih.1, ?_⟩
      simp only [List.map_cons]
      rw [ih.2]
      simp [List.filter_cons, hpr]

theorem runGroups_spec (o : PairOracle)
    (h : ∀ l r, o.elig l r ≠ EligOutcome.aborted) :
    ∀ gs : List PathSet,
      (runGroups o gs).2 = false
      ∧ List.map Prod.fst (runGroups o gs).1
          = gs.flatMap fun flist =>
              if flist.length ≤ 1 then []
              else (pairsOf flist).filter fun pr => pr.1 ≠ pr.2 := by
  intro gs
  induction gs with
  | nil => exact ⟨rfl, rfl⟩
  | cons flist rest ih =>
    have hred : runGroups o (flist :: rest)
        = if flist.length ≤ 1 then runGroups o rest
          else if (runPairs o (pairsOf flist)).2 then
            ((runPairs o (pairsOf flist)).1, true)
          else
            ((runPairs o (pairsOf flist)).1 ++ (runGroups o rest).1,
              (runGroups o rest).2) := rfl
    by_cases hlen : flist.length ≤ 1
    · have hstep : runGroups o (flist :: rest) = runGroups o rest := by
        rw [hred, if_pos hlen]
      rw [hstep]
      refine ⟨ih.1, ?_⟩
      rw [ih.2, List.flatMap_cons, if_pos hlen, List.nil_append]
    · obtain ⟨hp2, hp1⟩ := runPairs_spec o h (pairsOf flist)
      have hstep : runGroups o (flist :: rest)
          = ((runPairs o (pairsOf flist)).1 ++ (runGroups o rest).1,
              (runGroups o rest).2) := by
        rw [hred, if_neg hlen, hp2]
        simp
      rw [hstep]
      refine ⟨ih.1, ?_⟩
      simp only [List.map_append]
      rw [hp1, ih.2, List.flatMap_cons, if_neg hlen]

/-- C5 as amended: the orchestrator is best-effort over every returned
outcome.  When no prompt interaction panics (the eligibility oracle never
aborts), a failed comparison, an ineligible pair, a declined or accepted
prompt answer, an eligibility I/O error, or a failed link never removes
later pairs or groups from processing: the run does not abort, the trace of
processed pairs is exactly the full candidate-pair enumeration of every
duplicate group, independent of the outcomes, and `dedup_files` runs the
whole enumeration to completion.  (The prompt-interaction panic is the one
exception, established by the counterexample.) -/
theorem dedup_files_best_effort (cache : HashCache) (o1 o2 : PairOracle)
    (h1 : ∀ l r, o1.elig l r ≠ EligOutcome.aborted)
    (h2 : ∀ l r, o2.elig l r ≠ EligOutcome.aborted) :
    (dedup_files cache o1).2 = false
    ∧ List.map Prod.fst (dedup_files cache o1).1
        = List.map Prod.fst (dedup_files cache o2).1
    ∧ List.map Prod.fst (dedup_files cache o1).1
        = (HashCache.duplicates cache).flatMap
            fun flist => if flist.length ≤ 1 then [] else pairsOf flist := by
  have key : ∀ o : PairOracle, (∀ l r, o.elig l r ≠ EligOutcome.aborted) →
      List.map Prod.fst (dedup_files cache o).1
        = (HashCache.duplicates cache).flatMap
            fun flist => if flist.length ≤ 1 then [] else pairsOf flist := by
    intro o ho
    unfold dedup_files
    rw [(runGroups_spec o ho (HashCache.duplicates cache)).2]
    congr 1
    funext flist
    by_cases hlen : flist.length ≤ 1
    · rw [if_pos hlen, if_pos hlen]
    · rw [if_neg hlen, if_neg hlen]
      exact List.filter_eq_self.2 fun pr hpr => by
        simpa using pairsOf_ne flist pr hpr
  refine ⟨?_, ?_, key o1 h1⟩
  · unfold dedup_files
    exact (runGroups_spec o1 h1 (HashCache.duplicates cache)).1
  · rw [key o1 h1, key o2 h2]

/-- Witness for C5 as amended: over the concrete three-path group, the
all-eligible oracle and the all-different oracle (no prompt panic in
either) both process exactly the three candidate pairs, with no abort. -/
theorem dedup_files_best_effort_witness :
    (∀ l r, keepOracle.elig l r ≠ EligOutcome.aborted)
    ∧ (∀ l r, declineOracle.elig l r ≠ EligOutcome.aborted)
    ∧ ((dedup_files cacheD keepOracle).2 = false
        ∧ List.map Prod.fst (dedup_files cacheD keepOracle).1
            = List.map Prod.fst (dedup_files cacheD declineOracle).1
        ∧ List.map Prod.fst (dedup_files cacheD keepOracle).1
            = (HashCache.duplicates cacheD).flatMap
                fun flist => if flist.length ≤ 1 then [] else pairsOf flist) :=
  ⟨fun _ _ => by simp [keepOracle], fun _ _ => by simp [declineOracle],
    dedup_files_best_effort cacheD keepOracle declineOracle
      (fun _ _ => by simp [keepOracle]) (fun _ _ => by simp [declineOracle])⟩
